import Mathlib

set_option maxHeartbeats 1000000
set_option maxRecDepth 8192

namespace Knitty2

/-- One nibble expanded to four bits, most significant first
(the loop body of util.rs nibble_bits: (src & 8) >> 3, (src & 4) >> 2, ...). -/
def nibbleBitsOne (n : Nat) : List Bool :=
  [n.testBit 3, n.testBit 2, n.testBit 1, n.testBit 0]

/-- util.rs nibble_bits: a stream of 4 bit numbers to a stream of bits. -/
def nibble_bits (ns : List Nat) : List Bool :=
  ns.flatMap nibbleBitsOne

/-- nibble.rs Nibble::divide_byte: (v >> 4, v & 0xf). -/
def divide_byte (v : Nat) : Nat × Nat := (v / 16, v % 16)

/-- util.rs to_nibbles: bytes to nibbles, high nibble first. -/
def to_nibbles (bs : List Nat) : List Nat :=
  bs.flatMap (fun b => [(divide_byte b).1, (divide_byte b).2])

/-- nibble.rs Nibble::combine_nibbles: (n1 << 4) | n2, which for nibbles
below 16 equals 16 * n1 + n2. -/
def combine_nibbles (a b : Nat) : Nat := 16 * a + b

/-- util.rs from_nibbles: pairs of nibbles to bytes (chunks_exact 2 keeps
only complete pairs; the source asserts the length is even). -/
def from_nibbles : List Nat → List Nat
  | a :: b :: rest => combine_nibbles a b :: from_nibbles rest
  | _ => []

/-- One step of the util.rs from_bcd loop: s and m are u16 accumulators,
so the product and both updates wrap modulo 2^16. -/
def fromBcdStep (sm : Nat × Nat) (d : Nat) : Nat × Nat :=
  ((sm.1 + d * sm.2 % 65536) % 65536, sm.2 * 10 % 65536)

/-- util.rs from_bcd: nibbles (most significant digit first) to the value,
iterating over the reversed list with u16 arithmetic. -/
def from_bcd (ns : List Nat) : Nat :=
  (ns.reverse.foldl fromBcdStep ((0, 1) : Nat × Nat)).1

/-- The digit loop of util.rs to_bcd: least significant decimal digit first. -/
def bcdRev : Nat → List Nat
  | 0 => []
  | n + 1 => ((n + 1) % 10) :: bcdRev ((n + 1) / 10)
decreasing_by exact Nat.div_lt_self (Nat.succ_pos n) (by omega)

/-- util.rs to_bcd: the digits of n, zero padded at the least significant
end to min_width nibbles, then reversed to most significant first. -/
def to_bcd (n w : Nat) : List Nat :=
  (bcdRev n ++ List.replicate (w - (bcdRev n).length) 0).reverse

/-- The inner fold of util.rs bits_to_bytes: pack eight bits MSB first,
with the place value c halving from 128. -/
def byteVal (bs : List Bool) : Nat :=
  (bs.foldl (fun sc b => (if b then sc.1 + sc.2 else sc.1, sc.2 / 2)) ((0, 128) : Nat × Nat)).1

/-- util.rs bits_to_bytes (chunks_exact 8 keeps only complete chunks; the
source asserts the length is divisible by 8). -/
def bits_to_bytes : List Bool → List Nat
  | b0 :: b1 :: b2 :: b3 :: b4 :: b5 :: b6 :: b7 :: rest =>
      byteVal [b0, b1, b2, b3, b4, b5, b6, b7] :: bits_to_bytes rest
  | _ => []

/-- util.rs padding: distance from n up to the next multiple of a. -/
def padding (n a : Nat) : Nat := (a - n % a) % a

/-! Facts about the from_bcd fold. -/

theorem foldl_fromBcdStep_replicate_zero (k : Nat) :
    ∀ (p : Nat × Nat), p.1 < 65536 →
      ((List.replicate k 0).foldl fromBcdStep p).1 = p.1 := by
  induction k with
  | zero => intro p hs; simp
  | succ k ih =>
      intro p hs
      simp only [List.replicate_succ, List.foldl_cons, fromBcdStep]
      simpa [Nat.mod_eq_of_lt hs] using ih (p.1, p.2 * 10 % 65536) hs

theorem foldl_fromBcdStep_bcdRev (n : Nat) :
    ∀ (s m : Nat), n * m + s < 65536 →
      ((bcdRev n).foldl fromBcdStep (s, m)).1 = s + n * m := by
  induction n using Nat.strong_induction_on with
  | _ n ih =>
      intro s m hbound
      match n with
      | 0 => simp [bcdRev]
      | Nat.succ n' =>
          rw [bcdRev]
          simp only [List.foldl_cons, fromBcdStep]
          set q := Nat.succ n' with hq
          have hdm : q % 10 * m ≤ q * m := Nat.mul_le_mul_right m (Nat.mod_le q 10)
          have hdm' : q % 10 * m < 65536 := by omega
          have hsum : s + q % 10 * m < 65536 := by omega
          rw [Nat.mod_eq_of_lt hdm', Nat.mod_eq_of_lt hsum]
          by_cases hten : q < 10
          · have hq10 : q / 10 = 0 := Nat.div_eq_of_lt hten
            have hqmod : q % 10 = q := Nat.mod_eq_of_lt hten
            rw [hq10]
            simp only [bcdRev, List.foldl_nil]
            rw [hqmod]
          · have h10 : 10 ≤ q := Nat.le_of_not_lt hten
            have hm10 : m * 10 ≤ q * m := by
              calc m * 10 = 10 * m := Nat.mul_comm m 10
              _ ≤ q * m := Nat.mul_le_mul_right m h10
            have hm10' : m * 10 < 65536 := by omega
            rw [Nat.mod_eq_of_lt hm10']
            have hdiv : q / 10 < q := Nat.div_lt_self (by omega) (by omega)
            have hrec : q / 10 * (m * 10) + (s + q % 10 * m) < 65536 := by
              have : q / 10 * (m * 10) + q % 10 * m = q * m := by
                have hqd : q = 10 * (q / 10) + q % 10 := (Nat.div_add_mod q 10).symm
                calc q / 10 * (m * 10) + q % 10 * m
                    = (10 * (q / 10) + q % 10) * m := by ring
                  _ = q * m := by rw [← hqd]
              omega
            rw [ih (q / 10) hdiv (s + q % 10 * m) (m * 10) hrec]
            have hqd : q = 10 * (q / 10) + q % 10 := (Nat.div_add_mod q 10).symm
            calc s + q % 10 * m + q / 10 * (m * 10)
                = s + (10 * (q / 10) + q % 10) * m := by ring
              _ = s + q * m := by rw [← hqd]

/-- Claim C5 helper: the BCD roundtrip, for arbitrary minimum width. -/
theorem from_bcd_to_bcd (n w : Nat) (hn : n ≤ 9999) :
    from_bcd (to_bcd n w) = n := by
  unfold from_bcd to_bcd
  rw [List.reverse_reverse, List.foldl_append]
  have hmain : ((bcdRev n).foldl fromBcdStep ((0, 1) : Nat × Nat)).1 = 0 + n * 1 :=
    foldl_fromBcdStep_bcdRev n 0 1 (by omega)
  rw [foldl_fromBcdStep_replicate_zero _ _ (by omega), hmain]
  omega

/-! Packing and unpacking bit streams. -/

theorem unpack_byte : ∀ (b0 b1 b2 b3 b4 b5 b6 b7 : Bool),
    nibble_bits (to_nibbles [byteVal [b0, b1, b2, b3, b4, b5, b6, b7]]) =
      [b0, b1, b2, b3, b4, b5, b6, b7] := by decide

theorem bits_to_bytes_length (n : Nat) :
    ∀ bits : List Bool, bits.length = 8 * n → (bits_to_bytes bits).length = n := by
  induction n with
  | zero =>
      intro bits h
      have hnil : bits = [] := List.eq_nil_of_length_eq_zero (by omega)
      subst hnil; rfl
  | succ n ih =>
      intro bits h
      rcases bits with _ | ⟨b0, _ | ⟨b1, _ | ⟨b2, _ | ⟨b3, _ | ⟨b4, _ | ⟨b5, _ | ⟨b6, _ | ⟨b7, rest⟩⟩⟩⟩⟩⟩⟩⟩ <;>
        simp only [List.length_cons, List.length_nil] at h <;> try omega
      show (byteVal [b0, b1, b2, b3, b4, b5, b6, b7] :: bits_to_bytes rest).length = n + 1
      rw [List.length_cons, ih rest (by omega)]

theorem unpack_bits (n : Nat) :
    ∀ bits : List Bool, bits.length = 8 * n →
      nibble_bits (to_nibbles (bits_to_bytes bits)) = bits := by
  induction n with
  | zero =>
      intro bits h
      have hnil : bits = [] := List.eq_nil_of_length_eq_zero (by omega)
      subst hnil; rfl
  | succ n ih =>
      intro bits h
      rcases bits with _ | ⟨b0, _ | ⟨b1, _ | ⟨b2, _ | ⟨b3, _ | ⟨b4, _ | ⟨b5, _ | ⟨b6, _ | ⟨b7, rest⟩⟩⟩⟩⟩⟩⟩⟩ <;>
        simp only [List.length_cons, List.length_nil] at h <;> try omega
      have hrest := ih rest (by omega)
      have hbyte := unpack_byte b0 b1 b2 b3 b4 b5 b6 b7
      show nibble_bits (to_nibbles (byteVal [b0, b1, b2, b3, b4, b5, b6, b7] :: bits_to_bytes rest)) = _
      have hsplit : to_nibbles (byteVal [b0, b1, b2, b3, b4, b5, b6, b7] :: bits_to_bytes rest) =
          to_nibbles [byteVal [b0, b1, b2, b3, b4, b5, b6, b7]] ++ to_nibbles (bits_to_bytes rest) := by
        simp [to_nibbles]
      rw [hsplit]
      have happ : ∀ xs ys : List Nat, nibble_bits (xs ++ ys) = nibble_bits xs ++ nibble_bits ys := by
        intro xs ys; simp [nibble_bits]
      rw [happ, hbyte, hrest]
      rfl

theorem nibble_bits_length (ns : List Nat) : (nibble_bits ns).length = 4 * ns.length := by
  induction ns with
  | nil => rfl
  | cons a t ih => simp [nibble_bits, nibbleBitsOne] at ih ⊢; omega

theorem nibble_bits_drop (k : Nat) :
    ∀ ns : List Nat, nibble_bits (ns.drop k) = (nibble_bits ns).drop (4 * k) := by
  induction k with
  | zero => intro ns; simp
  | succ k ih =>
      intro ns
      cases ns with
      | nil => simp [nibble_bits]
      | cons a t =>
          rw [List.drop_succ_cons, ih t]
          have hcons : nibble_bits (a :: t) = nibbleBitsOne a ++ nibble_bits t := by
            simp [nibble_bits]
          have h4 : 4 * (k + 1) = (nibbleBitsOne a).length + 4 * k := by
            simp [nibbleBitsOne]; ring
          rw [hcons, h4, List.drop_append]

theorem nibble_bits_take (k : Nat) :
    ∀ ns : List Nat, nibble_bits (ns.take k) = (nibble_bits ns).take (4 * k) := by
  induction k with
  | zero => intro ns; simp [nibble_bits]
  | succ k ih =>
      intro ns
      cases ns with
      | nil => simp [nibble_bits]
      | cons a t =>
          rw [List.take_succ_cons]
          have hcons : ∀ t' : List Nat, nibble_bits (a :: t') = nibbleBitsOne a ++ nibble_bits t' := by
            intro t'; simp [nibble_bits]
          rw [hcons, hcons, ih t]
          have h4 : 4 * (k + 1) = (nibbleBitsOne a).length + 4 * k := by
            simp [nibbleBitsOne]; ring
          rw [h4, List.take_append]

/-! src/kh940.rs pattern codec. -/

/-- kh940.rs pattern_data_sizes row_nibbles: (width / 4).ceil() computed in
f32, which is exact for all widths in range; in Nat this is (width + 3) / 4. -/
def rowNibbles (width : Nat) : Nat := (width + 3) / 4

/-- kh940.rs pattern_data_sizes: (row_nibbles, row_pad_bits, initial_padding). -/
def pattern_data_sizes (width height : Nat) : Nat × Nat × Nat :=
  (rowNibbles width, padding width 4, padding (rowNibbles width * height) 2)

/-- The bit buffer built by kh940.rs Pattern::serialize_data:
initial_padding * 4 zero bits, then per row row_pad_bits zero bits followed
by the row reversed. -/
def packedBits (row_pad_bits initial_padding : Nat) (rows : List (List Bool)) : List Bool :=
  List.replicate (initial_padding * 4) false ++
    rows.flatMap (fun row => List.replicate row_pad_bits false ++ row.reverse)

/-- kh940.rs Pattern::serialize_data on explicit fields: the packed bit
buffer converted to bytes, with the memo appended. -/
def serialize_data (width height : Nat) (rows : List (List Bool)) (memo : List Nat) : List Nat :=
  bits_to_bytes
      (packedBits (pattern_data_sizes width height).2.1 (pattern_data_sizes width height).2.2 rows)
    ++ memo

/-- kh940.rs parse_pattern_rows. -/
def parse_pattern_rows (width height : Nat) (data : List Nat) : List (List Bool) :=
  let row_nibbles := (pattern_data_sizes width height).1
  let row_pad_bits := (pattern_data_sizes width height).2.1
  let initial_padding := (pattern_data_sizes width height).2.2
  let nibble_data := to_nibbles data
  (List.range height).map (fun row =>
    ((nibble_bits ((nibble_data.drop (initial_padding + row_nibbles * row)).take row_nibbles)).drop
      row_pad_bits).reverse)

/-- kh940.rs Pattern::from_memory_dump pattern_size:
ceil(ceil(width / 4) * height / 2) computed in f32, exact in this range. -/
def patternSize (width height : Nat) : Nat := (rowNibbles width * height + 1) / 2

theorem padding4_add (w : Nat) : padding w 4 + w = 4 * rowNibbles w := by
  unfold padding rowNibbles; omega

theorem padding2_even (n : Nat) : (n + padding n 2) % 2 = 0 := by
  unfold padding; omega

theorem flatMap_chunk_length (L : Nat) (f : List Bool → List Bool) :
    ∀ rows : List (List Bool), (∀ row ∈ rows, (f row).length = L) →
      (rows.flatMap f).length = L * rows.length := by
  intro rows
  induction rows with
  | nil => intro _; simp
  | cons a t ih =>
      intro hf
      simp only [List.flatMap_cons, List.length_append, List.length_cons]
      rw [hf a (by simp), ih (fun row hrow => hf row (by simp [hrow]))]
      ring

theorem flatMap_chunk_get (L : Nat) (f : List Bool → List Bool) :
    ∀ (rows : List (List Bool)) (r : Nat) (hr : r < rows.length),
      (∀ row ∈ rows, (f row).length = L) →
      ((rows.flatMap f).drop (L * r)).take L = f rows[r] := by
  intro rows
  induction rows with
  | nil => intro r hr; simp at hr
  | cons a t ih =>
      intro r hr hf
      cases r with
      | zero =>
          simp only [List.flatMap_cons, Nat.mul_zero, List.drop_zero, List.getElem_cons_zero]
          rw [List.take_left' (hf a (by simp))]
      | succ r =>
          simp only [List.flatMap_cons, List.getElem_cons_succ]
          have hL : L * (r + 1) = (f a).length + L * r := by
            rw [hf a (by simp)]; ring
          rw [hL, List.drop_append]
          exact ih r (by simpa using hr) (fun row hrow => hf row (by simp [hrow]))

theorem packedBits_length (rn rpb ip height : Nat) (rows : List (List Bool))
    (hlen : rows.length = height)
    (hchunkLen : ∀ row ∈ rows, (List.replicate rpb false ++ row.reverse).length = 4 * rn)
    (heven : (rn * height + ip) % 2 = 0) :
    (packedBits rpb ip rows).length = 8 * ((rn * height + ip) / 2) := by
  rw [packedBits, List.length_append, List.length_replicate,
    flatMap_chunk_length (4 * rn) _ rows hchunkLen, hlen]
  have h4 : 4 * rn * height = 4 * (rn * height) := by ring
  omega

theorem parse_packedBits (rn rpb ip height : Nat) (rows : List (List Bool))
    (hlen : rows.length = height)
    (hchunkLen : ∀ row ∈ rows, (List.replicate rpb false ++ row.reverse).length = 4 * rn)
    (heven : (rn * height + ip) % 2 = 0)
    (r : Nat) (hr : r < rows.length) :
    ((nibble_bits (((to_nibbles (bits_to_bytes (packedBits rpb ip rows))).drop
        (ip + rn * r)).take rn)).drop rpb).reverse = rows[r] := by
  rw [nibble_bits_take, nibble_bits_drop,
    unpack_bits ((rn * height + ip) / 2) _ (packedBits_length rn rpb ip height rows hlen hchunkLen heven)]
  rw [packedBits]
  have hsplit : 4 * (ip + rn * r) = (List.replicate (ip * 4) (false : Bool)).length + 4 * rn * r := by
    simp only [List.length_replicate]; ring
  rw [hsplit, List.drop_append]
  rw [flatMap_chunk_get (4 * rn) _ rows r hr hchunkLen]
  rw [List.drop_left' (by simp)]
  exact List.reverse_reverse _

/-- Claim C1: for a pattern with 1 ≤ width ≤ 200 and 1 ≤ height ≤ 999,
encoding the bitmap body with serialize_data and then decoding the packed
bytes with parse_pattern_rows at the same width and height yields exactly
the original rows, and the memo bytes appended after the packed bitmap are
preserved verbatim. -/
theorem pattern_body_roundtrip (width height : Nat) (rows : List (List Bool)) (memo : List Nat)
    (hw1 : 1 ≤ width) (hw2 : width ≤ 200) (hh1 : 1 ≤ height) (hh2 : height ≤ 999)
    (hlen : rows.length = height) (hrow : ∀ row ∈ rows, row.length = width) :
    parse_pattern_rows width height
        ((serialize_data width height rows memo).take (patternSize width height)) = rows ∧
      (serialize_data width height rows memo).drop (patternSize width height) = memo := by
  have hA : padding width 4 + width = 4 * rowNibbles width := padding4_add width
  have hchunkLen : ∀ row ∈ rows,
      (List.replicate (padding width 4) false ++ row.reverse).length = 4 * rowNibbles width := by
    intro row hr
    simp only [List.length_append, List.length_replicate, List.length_reverse, hrow row hr]
    exact hA
  have heven : (rowNibbles width * height + padding (rowNibbles width * height) 2) % 2 = 0 :=
    padding2_even (rowNibbles width * height)
  have hB : patternSize width height =
      (rowNibbles width * height + padding (rowNibbles width * height) 2) / 2 := by
    rw [patternSize, padding]
    omega
  have hbytesLen : (bits_to_bytes (packedBits (pattern_data_sizes width height).2.1
      (pattern_data_sizes width height).2.2 rows)).length = patternSize width height := by
    rw [pattern_data_sizes, hB]
    exact bits_to_bytes_length _ _
      (packedBits_length (rowNibbles width) (padding width 4) _ height rows hlen hchunkLen heven)
  constructor
  · rw [serialize_data, List.take_left' hbytesLen, parse_pattern_rows]
    refine List.ext_getElem ?_ ?_
    · simp [hlen]
    · intro i hi1 hi2
      simp only [List.getElem_map, List.getElem_range, pattern_data_sizes]
      exact parse_packedBits (rowNibbles width) (padding width 4) _ height rows hlen hchunkLen heven i
        (by simpa [hlen] using hi2)
  · rw [serialize_data, List.drop_left' hbytesLen]

/-- Claim C5: for every n in [0, 9999] and every minimum width w ≥ 0,
from_bcd (to_bcd n w) = n. -/
theorem bcd_roundtrip (n w : Nat) (hn : n ≤ 9999) : from_bcd (to_bcd n w) = n :=
  from_bcd_to_bcd n w hn

/-- Witness for claim C5 at n = 4711, w = 9. -/
theorem bcd_roundtrip_witness : from_bcd (to_bcd 4711 9) = 4711 :=
  bcd_roundtrip 4711 9 (by norm_num)

/-- Witness for claim C1 at a concrete 5-wide, 2-high pattern. -/
theorem pattern_body_roundtrip_witness :
    parse_pattern_rows 5 2
        ((serialize_data 5 2 [[true, false, true, false, true], [false, true, true, false, false]]
          [1, 2]).take (patternSize 5 2)) =
        [[true, false, true, false, true], [false, true, true, false, false]] ∧
      (serialize_data 5 2 [[true, false, true, false, true], [false, true, true, false, false]]
          [1, 2]).drop (patternSize 5 2) = [1, 2] :=
  pattern_body_roundtrip 5 2 [[true, false, true, false, true], [false, true, true, false, false]]
    [1, 2] (by decide) (by decide) (by decide) (by decide) (by decide) (by decide)

/-! kh940.rs data model and header codec. -/

structure Pattern where
  number : Nat
  rows : List (List Bool)
  height : Nat
  width : Nat
  memo : List Nat

/-- kh940.rs Pattern::serialize_data on a Pattern value. -/
def Pattern.serializeData (p : Pattern) : List Nat :=
  serialize_data p.width p.height p.rows p.memo

/-- kh940.rs Pattern::serialize_header: the offset as two big endian u16
bytes, then the ten nibbles to_bcd(height,3) ++ to_bcd(width,3) ++
to_bcd(number,4) packed into five bytes. -/
def Pattern.serializeHeader (p : Pattern) (offset : Nat) : List Nat :=
  [offset / 256 % 256, offset % 256] ++
    from_nibbles (to_bcd p.height 3 ++ to_bcd p.width 3 ++ to_bcd p.number 4)

/-- The header-field decoding done by kh940.rs Pattern::from_memory_dump:
the five bytes after the big endian end offset are split into ten nibbles;
nibbles 0..3 give the height, nibbles 3..6 the width and nibbles 7..10 the
pattern number, nibble 6 being skipped. -/
def headerFields (header : List Nat) : Nat × Nat × Nat :=
  let data_nibbles := to_nibbles (header.drop 2)
  (from_bcd (data_nibbles.take 3),
   from_bcd ((data_nibbles.drop 3).take 3),
   from_bcd ((data_nibbles.drop 7).take 3))

theorem to_nibbles_from_nibbles : ∀ ns : List Nat, (∀ x ∈ ns, x < 16) →
    ns.length % 2 = 0 → to_nibbles (from_nibbles ns) = ns
  | [], _, _ => rfl
  | [a], _, hl => by simp at hl
  | a :: b :: rest, h, hl => by
      have hb : b < 16 := h b (by simp)
      have hrec := to_nibbles_from_nibbles rest (fun x hx => h x (by simp [hx]))
        (by simp only [List.length_cons] at hl; omega)
      show to_nibbles (combine_nibbles a b :: from_nibbles rest) = _
      have hsplit : to_nibbles (combine_nibbles a b :: from_nibbles rest) =
          [(divide_byte (combine_nibbles a b)).1, (divide_byte (combine_nibbles a b)).2] ++
            to_nibbles (from_nibbles rest) := by
        simp [to_nibbles]
      rw [hsplit, hrec]
      have h1 : (divide_byte (combine_nibbles a b)).1 = a := by
        simp only [divide_byte, combine_nibbles]
        omega
      have h2 : (divide_byte (combine_nibbles a b)).2 = b := by
        simp only [divide_byte, combine_nibbles]
        omega
      rw [h1, h2]
      rfl

theorem bcdRev_mem_lt (n : Nat) : ∀ x ∈ bcdRev n, x < 10 := by
  induction n using Nat.strong_induction_on with
  | _ n ih =>
      match n with
      | 0 => intro x hx; simp [bcdRev] at hx
      | Nat.succ m =>
          intro x hx
          rw [bcdRev] at hx
          rcases List.mem_cons.mp hx with h | h
          · omega
          · exact ih (Nat.succ m / 10) (Nat.div_lt_self (by omega) (by omega)) x h

theorem to_bcd_mem_lt (n w : Nat) : ∀ x ∈ to_bcd n w, x < 10 := by
  intro x hx
  rw [to_bcd, List.mem_reverse, List.mem_append] at hx
  rcases hx with h | h
  · exact bcdRev_mem_lt n x h
  · have := List.eq_of_mem_replicate h
    omega

theorem bcdRev_length_le : ∀ (k n : Nat), n < 10 ^ k → (bcdRev n).length ≤ k := by
  intro k
  induction k with
  | zero =>
      intro n hn
      have : n = 0 := by simpa using hn
      subst this
      simp [bcdRev]
  | succ k ih =>
      intro n hn
      match n with
      | 0 => simp [bcdRev]
      | Nat.succ m =>
          rw [bcdRev, List.length_cons]
          have hdiv : Nat.succ m / 10 < 10 ^ k := by
            have hps : (10 : Nat) ^ (k + 1) = 10 * 10 ^ k := by ring
            omega
          exact Nat.succ_le_succ (ih _ hdiv)

theorem to_bcd_length (n w : Nat) (h : (bcdRev n).length ≤ w) : (to_bcd n w).length = w := by
  rw [to_bcd, List.length_reverse, List.length_append, List.length_replicate]
  omega

theorem to_bcd_length_three (n : Nat) (h : n ≤ 999) : (to_bcd n 3).length = 3 :=
  to_bcd_length n 3 (bcdRev_length_le 3 n (by norm_num; omega))

theorem to_bcd_length_four (n : Nat) (h : n ≤ 9999) : (to_bcd n 4).length = 4 :=
  to_bcd_length n 4 (bcdRev_length_le 4 n (by norm_num; omega))

theorem from_bcd_three (a b c : Nat) (ha : a < 10) (hb : b < 10) (hc : c < 10) :
    from_bcd [a, b, c] = 100 * a + 10 * b + c := by
  simp [from_bcd, fromBcdStep]
  omega

theorem from_bcd_four (a b c d : Nat) (ha : a < 10) (hb : b < 10) (hc : c < 10) (hd : d < 10) :
    from_bcd [a, b, c, d] = 1000 * a + 100 * b + 10 * c + d := by
  simp [from_bcd, fromBcdStep]
  omega

/-- Claim C7: the header codec is asymmetric in the pattern number: the
serializer writes the number as four BCD nibbles while the decoder reads
only the last three and skips nibble 6; hence decoding the header written
by serialize_header recovers height and width exactly and the pattern
number modulo 1000 (so exactly whenever the number is at most 999). -/
theorem header_roundtrip (p : Pattern) (offset : Nat)
    (hh : p.height ≤ 999) (hw : p.width ≤ 999) (hn : p.number ≤ 9999) :
    headerFields (p.serializeHeader offset) = (p.height, p.width, p.number % 1000) := by
  have hlh := to_bcd_length_three p.height hh
  have hlw := to_bcd_length_three p.width hw
  have hln := to_bcd_length_four p.number hn
  have hmem : ∀ x ∈ to_bcd p.height 3 ++ to_bcd p.width 3 ++ to_bcd p.number 4, x < 16 := by
    intro x hx
    rcases List.mem_append.mp hx with hx2 | hx2
    · rcases List.mem_append.mp hx2 with hx3 | hx3
      · have := to_bcd_mem_lt p.height 3 x hx3; omega
      · have := to_bcd_mem_lt p.width 3 x hx3; omega
    · have := to_bcd_mem_lt p.number 4 x hx2; omega
  have heven : (to_bcd p.height 3 ++ to_bcd p.width 3 ++ to_bcd p.number 4).length % 2 = 0 := by
    simp only [List.length_append, hlh, hlw, hln]
  have hdrop2 : (p.serializeHeader offset).drop 2 =
      from_nibbles (to_bcd p.height 3 ++ to_bcd p.width 3 ++ to_bcd p.number 4) := by
    rw [Pattern.serializeHeader]
    exact List.drop_left' (by simp)
  obtain ⟨d, t, hdt⟩ : ∃ d t, to_bcd p.number 4 = d :: t := by
    cases hC : to_bcd p.number 4 with
    | nil => rw [hC] at hln; simp at hln
    | cons x t => exact ⟨x, t, rfl⟩
  have htlen : t.length = 3 := by
    have := hln
    rw [hdt] at this
    simpa using this
  obtain ⟨a2, b2, c2, habc⟩ := List.length_eq_three.mp htlen
  have hC4 : to_bcd p.number 4 = [d, a2, b2, c2] := by rw [hdt, habc]
  have hdig : d < 10 ∧ a2 < 10 ∧ b2 < 10 ∧ c2 < 10 := by
    refine ⟨?_, ?_, ?_, ?_⟩ <;>
      exact to_bcd_mem_lt p.number 4 _ (by rw [hC4]; simp)
  have hfourv : from_bcd [d, a2, b2, c2] = 1000 * d + 100 * a2 + 10 * b2 + c2 :=
    from_bcd_four d a2 b2 c2 hdig.1 hdig.2.1 hdig.2.2.1 hdig.2.2.2
  have hCval : from_bcd (to_bcd p.number 4) = p.number := from_bcd_to_bcd p.number 4 hn
  rw [hC4, hfourv] at hCval
  rw [headerFields, hdrop2, to_nibbles_from_nibbles _ hmem heven]
  rw [List.append_assoc]
  have h1 : (to_bcd p.height 3 ++ (to_bcd p.width 3 ++ to_bcd p.number 4)).take 3 =
      to_bcd p.height 3 := List.take_left' hlh
  have h2 : (to_bcd p.height 3 ++ (to_bcd p.width 3 ++ to_bcd p.number 4)).drop 3 =
      to_bcd p.width 3 ++ to_bcd p.number 4 := List.drop_left' hlh
  have h3 : (to_bcd p.width 3 ++ to_bcd p.number 4).take 3 = to_bcd p.width 3 :=
    List.take_left' hlw
  have h4 : (to_bcd p.height 3 ++ (to_bcd p.width 3 ++ to_bcd p.number 4)).drop 7 = [a2, b2, c2] := by
    have hsum : 7 = (to_bcd p.height 3 ++ to_bcd p.width 3).length + 1 := by
      simp [hlh, hlw]
    rw [← List.append_assoc, hsum, List.drop_append, hC4]
    rfl
  rw [h1, h2, h3, h4]
  have h5 : ([a2, b2, c2] : List Nat).take 3 = [a2, b2, c2] := rfl
  rw [h5, from_bcd_to_bcd p.height 3 (by omega), from_bcd_to_bcd p.width 3 (by omega),
    from_bcd_three a2 b2 c2 hdig.2.1 hdig.2.2.1 hdig.2.2.2]
  have : 100 * a2 + 10 * b2 + c2 = p.number % 1000 := by omega
  rw [this]

/-- Witness for claim C7 at a concrete pattern with number 1234. -/
theorem header_roundtrip_witness :
    headerFields ((Pattern.mk 1234 [] 30 20 []).serializeHeader 0x120) = (30, 20, 234) :=
  header_roundtrip (Pattern.mk 1234 [] 30 20 []) 0x120 (by norm_num) (by norm_num) (by norm_num)

/-- kh940.rs MachineState::add_pattern applied to the patterns list: retain
the patterns with a different number, push the new pattern, then sort
ascending by number (sort_unstable_by_key). -/
def add_pattern (patterns : List Pattern) (p : Pattern) : List Pattern :=
  ((patterns.filter (fun q => q.number != p.number)) ++ [p]).mergeSort
    (fun a b => a.number ≤ b.number)

/-- Claim C8: after add_pattern p, the pattern list contains exactly one
pattern whose number equals p.number, and the whole list is sorted in
ascending order of number. -/
theorem add_pattern_spec (patterns : List Pattern) (p : Pattern) :
    (add_pattern patterns p).countP (fun q => q.number == p.number) = 1 ∧
      List.Sorted (fun a b : Pattern => a.number ≤ b.number) (add_pattern patterns p) := by
  constructor
  · have hperm : List.Perm (add_pattern patterns p)
        (patterns.filter (fun q => q.number != p.number) ++ [p]) :=
      List.mergeSort_perm _ _
    rw [hperm.countP_eq, List.countP_append]
    have h1 : (patterns.filter (fun q => q.number != p.number)).countP
        (fun q => q.number == p.number) = 0 := by
      rw [List.countP_eq_zero]
      intro a ha
      have hne := (List.mem_filter.mp ha).2
      simp only [bne_iff_ne, ne_eq] at hne
      simp [hne]
    rw [h1]
    simp [List.countP_cons]
  · have hs := @List.sorted_mergeSort Pattern (fun a b : Pattern => decide (a.number ≤ b.number))
      (fun a b c hab hbc => by
        simp only [decide_eq_true_eq] at hab hbc ⊢
        omega)
      (fun a b => by
        simp only [Bool.or_eq_true, decide_eq_true_eq]
        omega)
      ((patterns.filter (fun q => q.number != p.number)) ++ [p])
    exact hs.imp (fun h => by simpa using h)

/-! kh940.rs machine-state serialization. -/

structure ControlData where
  next_pattern_ptr1 : Nat
  unknown1 : Nat
  next_pattern_ptr2 : Nat
  last_pattern_end_ptr : Nat
  unknown2 : Nat
  last_pattern_start_ptr : Nat
  unknown3 : Nat
  header_end_ptr : Nat
  unknown_ptr : Nat
  unknown4_1 : Nat
  unknown4_2 : Nat

structure MachineState where
  patterns : List Pattern
  data0 : List Nat
  control_data : ControlData
  data1 : List Nat
  loaded_pattern : Nat
  data2 : List Nat

/-- The pattern layout loop of kh940.rs MachineState::serialize: offsets
start at 0x120 and advance by the body length; the offset accumulator and
the length cast are u16, hence the explicit wrap modulo 65536. -/
def patternLayout : List Pattern → Nat → List (Nat × Pattern × List Nat)
  | [], _ => []
  | p :: rest, offset =>
      (offset, p, p.serializeData) ::
        patternLayout rest ((offset + p.serializeData.length % 65536) % 65536)

/-- Big endian bytes of a u16 value (u16::to_be_bytes). -/
def be16 (n : Nat) : List Nat := [n / 256 % 256, n % 256]

/-- Big endian bytes of a u32 value (u32::to_be_bytes). -/
def be32 (n : Nat) : List Nat :=
  [n / 16777216 % 256, n / 65536 % 256, n / 256 % 256, n % 256]

/-- kh940.rs serialize_pattern_layout: the 7-byte headers, five zero bytes,
two bytes holding to_bcd(max_number + 1, 4) with max_number defaulting to
900, then (97 - N) empty 7-byte header slots. -/
def serialize_pattern_layout (layout : List (Nat × Pattern × List Nat)) : List Nat :=
  (layout.flatMap fun e => e.2.1.serializeHeader e.1) ++
    [0, 0, 0, 0, 0] ++
    from_nibbles (to_bcd (((layout.map fun e => e.2.1.number).max?).getD 900 + 1) 4) ++
    List.replicate ((97 - layout.length) * 7) 0

/-- The last_pattern_end value of kh940.rs serialize_pattern_memory_padding:
offset plus body length of the last layout entry (usize arithmetic), or
0x120 when there is no pattern. -/
def layoutEnd (layout : List (Nat × Pattern × List Nat)) : Nat :=
  match layout.getLast? with
  | some e => e.1 + e.2.2.length
  | none => 0x120

/-- kh940.rs serialize_pattern_memory_padding: zero bytes from the end of
the 686-byte header region up to the start of the downward-growing pattern
memory. -/
def serialize_pattern_memory_padding (layout : List (Nat × Pattern × List Nat)) : List Nat :=
  List.replicate (0x8000 - layoutEnd layout - 686) 0

/-- kh940.rs serialize_pattern_memory: the pattern bodies in reverse layout
order. -/
def serialize_pattern_memory (layout : List (Nat × Pattern × List Nat)) : List Nat :=
  layout.reverse.flatMap fun e => e.2.2

/-- kh940.rs ControlData::update, with the u16 additions wrapping. -/
def ControlData.update (c : ControlData) (layout : List (Nat × Pattern × List Nat)) : ControlData :=
  let ese : Nat × Nat × Nat :=
    match layout.getLast? with
    | some e =>
        let lastStart := (e.1 + e.2.2.length % 65536) % 65536
        (e.1, lastStart, (lastStart + 1) % 65536)
    | none => (0, 0, 0x120)
  { c with
    next_pattern_ptr1 := ese.2.2,
    next_pattern_ptr2 := if layout.isEmpty then 0 else ese.2.2,
    last_pattern_end_ptr := ese.1,
    last_pattern_start_ptr := ese.2.1,
    header_end_ptr := (0x8000 - 7 * layout.length - 7) % 65536 }

/-- kh940.rs ControlData::serialize: 23 bytes, big endian fields. -/
def ControlData.serialize (c : ControlData) : List Nat :=
  be16 c.next_pattern_ptr1 ++ be16 c.unknown1 ++ be16 c.next_pattern_ptr2 ++
    be16 c.last_pattern_end_ptr ++ be16 c.unknown2 ++ be16 c.last_pattern_start_ptr ++
    be32 c.unknown3 ++ be16 c.header_end_ptr ++ be16 c.unknown_ptr ++
    be16 c.unknown4_1 ++ [c.unknown4_2 % 256]

/-- kh940.rs serialize_loaded_pattern: a leading 1 nibble followed by
to_bcd(n, 3), packed into bytes. -/
def serialize_loaded_pattern (n : Nat) : List Nat :=
  from_nibbles (1 :: to_bcd n 3)

/-- The control data held by a MachineState after the update call inside
kh940.rs MachineState::serialize. -/
def MachineState.controlAfter (st : MachineState) : ControlData :=
  st.control_data.update (patternLayout st.patterns 0x120)

/-- kh940.rs MachineState::serialize: header region, padding, pattern
memory, data0, updated control data, data1, loaded pattern, data2. -/
def MachineState.serialize (st : MachineState) : List Nat :=
  serialize_pattern_layout (patternLayout st.patterns 0x120) ++
    serialize_pattern_memory_padding (patternLayout st.patterns 0x120) ++
    serialize_pattern_memory (patternLayout st.patterns 0x120) ++
    st.data0 ++ st.controlAfter.serialize ++ st.data1 ++
    serialize_loaded_pattern st.loaded_pattern ++ st.data2

theorem patternLayout_length : ∀ (ps : List Pattern) (off : Nat),
    (patternLayout ps off).length = ps.length
  | [], _ => rfl
  | p :: rest, off => by
      simp only [patternLayout, List.length_cons, patternLayout_length rest]

theorem patternLayout_numbers : ∀ (ps : List Pattern) (off : Nat),
    (patternLayout ps off).map (fun e => e.2.1.number) = ps.map (fun q => q.number)
  | [], _ => rfl
  | p :: rest, off => by
      simp only [patternLayout, List.map_cons, patternLayout_numbers rest]

theorem patternLayout_last_spec : ∀ (ps : List Pattern) (off : Nat),
    off + (ps.map fun q => q.serializeData.length).sum < 65536 →
    (ps = [] ∧ patternLayout ps off = []) ∨
      (∃ e, (patternLayout ps off).getLast? = some e ∧ e.2.2.length < 65536 ∧
        e.1 + e.2.2.length = off + (ps.map fun q => q.serializeData.length).sum)
  | [], _, _ => Or.inl ⟨rfl, rfl⟩
  | p :: rest, off, h => by
      have hsum : (List.map (fun q => q.serializeData.length) (p :: rest)).sum =
          p.serializeData.length + (List.map (fun q => q.serializeData.length) rest).sum := by
        simp
      rw [hsum] at h
      have hmod : p.serializeData.length % 65536 = p.serializeData.length :=
        Nat.mod_eq_of_lt (by omega)
      have hmod2 : (off + p.serializeData.length) % 65536 = off + p.serializeData.length :=
        Nat.mod_eq_of_lt (by omega)
      right
      cases rest with
      | nil =>
          refine ⟨(off, p, p.serializeData), rfl, ?_, ?_⟩
          · show p.serializeData.length < 65536
            simp only [List.map_nil, List.sum_nil] at h
            omega
          · show off + p.serializeData.length =
              off + (List.map (fun q => q.serializeData.length) [p]).sum
            simp
      | cons q rest2 =>
          have hcons : patternLayout (p :: q :: rest2) off =
              (off, p, p.serializeData) ::
                patternLayout (q :: rest2) ((off + p.serializeData.length % 65536) % 65536) := rfl
          rw [hcons, hmod, hmod2]
          have hrec := patternLayout_last_spec (q :: rest2) (off + p.serializeData.length)
            (by simp at h ⊢; omega)
          rcases hrec with ⟨hnil, _⟩ | ⟨e, hlast, hlt, hval⟩
          · exact absurd hnil (by simp)
          · refine ⟨e, ?_, hlt, ?_⟩
            · have hcons2 : patternLayout (q :: rest2) (off + p.serializeData.length) =
                  (off + p.serializeData.length, q, q.serializeData) ::
                    patternLayout rest2
                      ((off + p.serializeData.length + q.serializeData.length % 65536) % 65536) := rfl
              rw [hcons2]
              rw [hcons2] at hlast
              rw [List.getLast?_cons_cons]
              exact hlast
            · rw [hval, hsum]
              omega

theorem from_nibbles_length : ∀ ns : List Nat, (from_nibbles ns).length = ns.length / 2
  | [] => rfl
  | [_] => by simp [from_nibbles]
  | a :: b :: rest => by
      show (combine_nibbles a b :: from_nibbles rest).length = _
      rw [List.length_cons, from_nibbles_length rest]
      simp only [List.length_cons]
      omega

theorem serializeHeader_length (p : Pattern) (off : Nat)
    (hh : p.height ≤ 999) (hw : p.width ≤ 999) (hn : p.number ≤ 9999) :
    (p.serializeHeader off).length = 7 := by
  rw [Pattern.serializeHeader, List.length_append, from_nibbles_length]
  simp only [List.length_append, to_bcd_length_three p.height hh, to_bcd_length_three p.width hw,
    to_bcd_length_four p.number hn, List.length_cons, List.length_nil]

theorem layout_headers_length (ps : List Pattern)
    (hb : ∀ p ∈ ps, p.height ≤ 999 ∧ p.width ≤ 999 ∧ p.number ≤ 999) :
    ∀ off : Nat,
      ((patternLayout ps off).flatMap fun e => e.2.1.serializeHeader e.1).length =
        7 * ps.length := by
  induction ps with
  | nil => intro off; rfl
  | cons p rest ih =>
      intro off
      have hcons : patternLayout (p :: rest) off =
          (off, p, p.serializeData) ::
            patternLayout rest ((off + p.serializeData.length % 65536) % 65536) := rfl
      rw [hcons, List.flatMap_cons, List.length_append,
        ih (fun q hq => hb q (by simp [hq])) _]
      have hb0 := hb p (by simp)
      rw [serializeHeader_length p off hb0.1 hb0.2.1 (by omega)]
      simp only [List.length_cons]
      ring

theorem layout_max_number_le (ps : List Pattern) (hb : ∀ p ∈ ps, p.number ≤ 999) (off : Nat) :
    (((patternLayout ps off).map fun e => e.2.1.number).max?).getD 900 ≤ 999 := by
  rw [patternLayout_numbers]
  cases hmax : (ps.map fun q => q.number).max? with
  | none => simp
  | some m =>
      have hmem : m ∈ ps.map fun q => q.number :=
        List.max?_mem (fun a b => by omega) hmax
      obtain ⟨p, hp, rfl⟩ := List.mem_map.mp hmem
      simpa using hb p hp

theorem serialize_pattern_layout_length (ps : List Pattern)
    (hb : ∀ p ∈ ps, p.height ≤ 999 ∧ p.width ≤ 999 ∧ p.number ≤ 999)
    (hN : ps.length ≤ 97) (off : Nat) :
    (serialize_pattern_layout (patternLayout ps off)).length = 686 := by
  rw [serialize_pattern_layout]
  simp only [List.length_append, List.length_replicate, List.length_cons, List.length_nil]
  rw [layout_headers_length ps hb off, from_nibbles_length, patternLayout_length]
  have hmax := layout_max_number_le ps (fun p hp => (hb p hp).2.2) off
  rw [to_bcd_length_four _ (by omega)]
  omega

theorem serialize_pattern_memory_length (ps : List Pattern) :
    ∀ off : Nat, (serialize_pattern_memory (patternLayout ps off)).length =
      (ps.map fun q => q.serializeData.length).sum := by
  induction ps with
  | nil => intro off; rfl
  | cons p rest ih =>
      intro off
      have hcons : patternLayout (p :: rest) off =
          (off, p, p.serializeData) ::
            patternLayout rest ((off + p.serializeData.length % 65536) % 65536) := rfl
      rw [serialize_pattern_memory, hcons, List.reverse_cons, List.flatMap_append,
        List.length_append]
      simp only [serialize_pattern_memory] at ih
      rw [ih _]
      simp only [List.flatMap_cons, List.flatMap_nil, List.append_nil, List.map_cons,
        List.sum_cons]
      omega

theorem controlSerialize_length (c : ControlData) : c.serialize.length = 23 := by
  simp [ControlData.serialize, be16, be32]

theorem serialize_loaded_pattern_length (n : Nat) (hn : n ≤ 999) :
    (serialize_loaded_pattern n).length = 2 := by
  rw [serialize_loaded_pattern, from_nibbles_length]
  simp [to_bcd_length_three n hn]

/-- Claim C2: for a MachineState whose passthrough regions have the fixed
lengths obtained by decoding a 32768-byte RAM image, and whose patterns
(after any insertions) still fit below the control region, serialize
returns a byte vector of length exactly 32768. -/
theorem machine_serialize_length (st : MachineState)
    (h0 : st.data0.length = 32) (h1 : st.data1.length = 211) (h2 : st.data2.length = 20)
    (hlp : st.loaded_pattern ≤ 999)
    (hN : st.patterns.length ≤ 97)
    (hb : ∀ p ∈ st.patterns, p.height ≤ 999 ∧ p.width ≤ 999 ∧ p.number ≤ 999)
    (hfit : 0x120 + (st.patterns.map fun q => q.serializeData.length).sum ≤ 0x7D52) :
    st.serialize.length = 32768 := by
  rw [MachineState.serialize]
  simp only [List.length_append]
  rw [serialize_pattern_layout_length st.patterns hb hN _,
    serialize_pattern_memory_length st.patterns _,
    controlSerialize_length, serialize_loaded_pattern_length _ hlp, h0, h1, h2]
  have hend : layoutEnd (patternLayout st.patterns 0x120) =
      0x120 + (st.patterns.map fun q => q.serializeData.length).sum := by
    rcases patternLayout_last_spec st.patterns 0x120 (by omega) with
      ⟨hps, hlay⟩ | ⟨e, hlast, _, hval⟩
    · rw [layoutEnd, hlay]
      simp [hps]
    · rw [layoutEnd, hlast]
      exact hval
  rw [serialize_pattern_memory_padding, List.length_replicate, hend]
  omega

/-- Witness for claim C2 at a pattern-free machine state with the decoded
region lengths. -/
theorem machine_serialize_length_witness :
    (MachineState.mk [] (List.replicate 32 0) (ControlData.mk 0 0 0 0 0 0 0 0 0 0 0)
        (List.replicate 211 0) 0 (List.replicate 20 0)).serialize.length = 32768 :=
  machine_serialize_length _ (by simp) (by simp) (by simp) (by norm_num) (by simp)
    (by intro p hp; simp at hp) (by simp)

/-- Claim C3: after MachineState::serialize the control block holds the
recomputed pointers: with at least one pattern both next-pattern pointers
are the last offset plus the last body length plus one, the end pointer is
the last offset and the start pointer the last offset plus the body
length; with no patterns they are 0x120, 0, 0, 0; in both cases
header_end_ptr is 0x8000 - 7N - 7, and every other field is preserved. -/
theorem control_update_spec (st : MachineState)
    (hN : st.patterns.length ≤ 97)
    (hfit : 0x120 + (st.patterns.map fun q => q.serializeData.length).sum ≤ 0x7D52) :
    (∀ e, (patternLayout st.patterns 0x120).getLast? = some e →
        st.controlAfter.next_pattern_ptr1 = e.1 + e.2.2.length + 1 ∧
        st.controlAfter.next_pattern_ptr2 = e.1 + e.2.2.length + 1 ∧
        st.controlAfter.last_pattern_end_ptr = e.1 ∧
        st.controlAfter.last_pattern_start_ptr = e.1 + e.2.2.length) ∧
      ((patternLayout st.patterns 0x120).getLast? = none →
        st.controlAfter.next_pattern_ptr1 = 0x120 ∧
        st.controlAfter.next_pattern_ptr2 = 0 ∧
        st.controlAfter.last_pattern_end_ptr = 0 ∧
        st.controlAfter.last_pattern_start_ptr = 0) ∧
      st.controlAfter.header_end_ptr = 0x8000 - 7 * st.patterns.length - 7 ∧
      st.controlAfter.unknown1 = st.control_data.unknown1 ∧
      st.controlAfter.unknown2 = st.control_data.unknown2 ∧
      st.controlAfter.unknown3 = st.control_data.unknown3 ∧
      st.controlAfter.unknown_ptr = st.control_data.unknown_ptr ∧
      st.controlAfter.unknown4_1 = st.control_data.unknown4_1 ∧
      st.controlAfter.unknown4_2 = st.control_data.unknown4_2 := by
  refine ⟨?_, ?_, ?_, ?_, ?_, ?_, ?_, ?_, ?_⟩
  · intro e hsome
    rcases patternLayout_last_spec st.patterns 0x120 (by omega) with
      ⟨_, hlay⟩ | ⟨e2, hlast, hlt, hval⟩
    · rw [hlay] at hsome; simp at hsome
    · rw [hlast] at hsome
      have he : e2 = e := by injection hsome
      subst he
      have hmod : e2.2.2.length % 65536 = e2.2.2.length := Nat.mod_eq_of_lt hlt
      have hmod2 : (e2.1 + e2.2.2.length) % 65536 = e2.1 + e2.2.2.length :=
        Nat.mod_eq_of_lt (by omega)
      have hmod3 : (e2.1 + e2.2.2.length + 1) % 65536 = e2.1 + e2.2.2.length + 1 :=
        Nat.mod_eq_of_lt (by omega)
      have hne : (patternLayout st.patterns 0x120).isEmpty = false := by
        cases hl : patternLayout st.patterns 0x120 with
        | nil => rw [hl] at hlast; simp at hlast
        | cons x xs => simp
      simp only [MachineState.controlAfter, ControlData.update, hlast, hne]
      simp [hmod, hmod2, hmod3]
  · intro hnone
    have hempty : (patternLayout st.patterns 0x120).isEmpty = true := by
      rw [List.getLast?_eq_none_iff] at hnone
      simp [hnone]
    simp only [MachineState.controlAfter, ControlData.update, hnone, hempty]
    simp
  · have hmodh : (0x8000 - 7 * (patternLayout st.patterns 0x120).length - 7) % 65536 =
        0x8000 - 7 * (patternLayout st.patterns 0x120).length - 7 := by
      rw [patternLayout_length]
      apply Nat.mod_eq_of_lt
      omega
    simp only [MachineState.controlAfter, ControlData.update]
    rw [patternLayout_length]
    apply Nat.mod_eq_of_lt
    omega
  · simp [MachineState.controlAfter, ControlData.update]
  · simp [MachineState.controlAfter, ControlData.update]
  · simp [MachineState.controlAfter, ControlData.update]
  · simp [MachineState.controlAfter, ControlData.update]
  · simp [MachineState.controlAfter, ControlData.update]
  · simp [MachineState.controlAfter, ControlData.update]

/-- Witness for claim C3 at a pattern-free machine state, via the
no-pattern branch of the theorem. -/
theorem control_update_spec_witness :
    (MachineState.mk [] [] (ControlData.mk 1 2 3 4 5 6 7 8 9 10 11)
        [] 0 []).controlAfter.next_pattern_ptr1 = 0x120 ∧
      (MachineState.mk [] [] (ControlData.mk 1 2 3 4 5 6 7 8 9 10 11)
        [] 0 []).controlAfter.next_pattern_ptr2 = 0 ∧
      (MachineState.mk [] [] (ControlData.mk 1 2 3 4 5 6 7 8 9 10 11)
        [] 0 []).controlAfter.last_pattern_end_ptr = 0 ∧
      (MachineState.mk [] [] (ControlData.mk 1 2 3 4 5 6 7 8 9 10 11)
        [] 0 []).controlAfter.last_pattern_start_ptr = 0 :=
  (control_update_spec _ (by simp) (by simp)).2.1 rfl

/-! fdcemu.rs: the disk store and the FDC protocol handlers. -/

structure Sector where
  id : List Nat
  data : List Nat

/-- fdcemu.rs Disk::flatten_data: the concatenation of the 1024-byte
sector bodies, identifiers excluded. -/
def flatten_data (sectors : List Sector) : List Nat :=
  sectors.flatMap (fun s => s.data)

/-- The Vec::resize call of fdcemu.rs Disk::set_flattened_data: truncate
or zero pad the input to 80 * 1024 = 81920 bytes. -/
def resize81920 (v : List Nat) : List Nat :=
  v.take 81920 ++ List.replicate (81920 - v.length) 0

/-- fdcemu.rs Disk::set_flattened_data: after the resize, overwrite each
sector body with its 1024-byte chunk of the flat data; identifiers are
untouched. -/
def set_flattened_data (sectors : List Sector) (v : List Nat) : List Sector :=
  sectors.mapIdx (fun i s => Sector.mk s.id (((resize81920 v).drop (i * 1024)).take 1024))

theorem resize81920_length (v : List Nat) : (resize81920 v).length = 81920 := by
  rw [resize81920, List.length_append, List.length_take, List.length_replicate]
  omega

theorem mapIdx_chunks_flatten : ∀ (ss : List Sector) (d : List Nat),
    ((ss.mapIdx fun i s => Sector.mk s.id ((d.drop (i * 1024)).take 1024)).flatMap
        fun s => s.data) = d.take (ss.length * 1024)
  | [], _ => rfl
  | a :: t, d => by
      rw [List.mapIdx_cons, List.flatMap_cons]
      have hfun : (fun i (s : Sector) =>
            Sector.mk s.id ((d.drop ((i + 1) * 1024)).take 1024)) =
          (fun i s => Sector.mk s.id (((d.drop 1024).drop (i * 1024)).take 1024)) := by
        funext i s
        rw [List.drop_drop]
        have harith : (i + 1) * 1024 = 1024 + i * 1024 := by ring
        rw [harith]
      show (Sector.mk a.id ((d.drop (0 * 1024)).take 1024)).data ++
          ((t.mapIdx fun i s => Sector.mk s.id ((d.drop ((i + 1) * 1024)).take 1024)).flatMap
            fun s => s.data) = d.take ((a :: t).length * 1024)
      rw [hfun, mapIdx_chunks_flatten t (d.drop 1024)]
      show d.take 1024 ++ (d.drop 1024).take (t.length * 1024) = _
      rw [← List.take_add]
      congr 1
      simp only [List.length_cons]
      ring

theorem mapIdx_preserves_id : ∀ (g : Nat → Sector → List Nat) (ss : List Sector),
    ((ss.mapIdx fun i s => Sector.mk s.id (g i s)).map fun s => s.id) =
      ss.map fun s => s.id
  | _, [] => rfl
  | g, a :: t => by
      rw [List.mapIdx_cons]
      show a.id :: ((t.mapIdx fun i s => Sector.mk s.id (g (i + 1) s)).map fun s => s.id) =
        a.id :: (t.map fun s => s.id)
      rw [mapIdx_preserves_id (fun i s => g (i + 1) s) t]

/-- Claim C6: after set_flattened_data v, flatten_data returns v truncated
or right padded with zeroes to exactly 81920 bytes, and every sector
identifier is unchanged. -/
theorem set_flattened_data_spec (sectors : List Sector) (v : List Nat)
    (h80 : sectors.length = 80) :
    flatten_data (set_flattened_data sectors v) =
        v.take 81920 ++ List.replicate (81920 - v.length) 0 ∧
      ((set_flattened_data sectors v).map fun s => s.id) = sectors.map fun s => s.id := by
  constructor
  · rw [flatten_data, set_flattened_data, mapIdx_chunks_flatten, h80]
    have hlen : (resize81920 v).length = 80 * 1024 := by rw [resize81920_length]
    rw [← hlen, List.take_length, resize81920]
  · rw [set_flattened_data]
    exact mapIdx_preserves_id _ sectors

/-- Witness for claim C6 on an 80-sector disk and a short input. -/
theorem set_flattened_data_spec_witness :
    flatten_data (set_flattened_data (List.replicate 80 (Sector.mk [3] [])) [5, 6]) =
        ([5, 6] : List Nat).take 81920 ++ List.replicate (81920 - 2) 0 ∧
      ((set_flattened_data (List.replicate 80 (Sector.mk [3] [])) [5, 6]).map fun s => s.id) =
        (List.replicate 80 (Sector.mk [3] [])).map fun s => s.id :=
  set_flattened_data_spec (List.replicate 80 (Sector.mk [3] [])) [5, 6] (by simp)

/-- Uppercase hex digit of a value below 16, as an ASCII byte. -/
def hexDigit (n : Nat) : Nat := if n < 10 then 48 + n else 55 + n

/-- The two uppercase ASCII hex digits of format("{n:02X}") for n < 256. -/
def hex2 (n : Nat) : List Nat := [hexDigit (n / 16), hexDigit (n % 16)]

/-- The fdcemu.rs success status reply format("00{psn:02X}0000"). -/
def success_reply (psn : Nat) : List Nat := [48, 48] ++ hex2 psn ++ [48, 48, 48, 48]

/-- fdcemu.rs FdcServer::fdc_search_id_section after an empty argument
line: write "00000000", read the 12-byte target identifier, scan the
sectors for the first whose identifier equals the target (Iterator
position); write the success reply carrying the found index, or
"40000000" on a miss. Returns the written bytes and the disk, which the
handler does not mutate. -/
def fdc_search_id_section (sectors : List Sector) (sector_id : List Nat) :
    List Nat × List Sector :=
  ([48, 48, 48, 48, 48, 48, 48, 48] ++
      (match sectors.findIdx? (fun s => s.id == sector_id) with
       | some i => success_reply i
       | none => [52, 48, 48, 48, 48, 48, 48, 48]),
    sectors)

theorem findIdx?_eq_some_of_least {α : Type} (p : α → Bool) :
    ∀ (l : List α) (k i : Nat) (hk : k < l.length),
      p (l.get ⟨k, hk⟩) = true →
      (∀ j (hj : j < k), p (l.get ⟨j, Nat.lt_trans hj hk⟩) = false) →
      l.findIdx? p i = some (i + k)
  | [], k, i, hk, _, _ => absurd hk (by simp)
  | a :: t, 0, i, hk, hp, _ => by
      have ha : p a = true := hp
      simp [List.findIdx?_cons, ha]
  | a :: t, k + 1, i, hk, hp, hleast => by
      have ha : p a = false := hleast 0 (Nat.succ_pos k)
      simp only [List.findIdx?_cons, ha]
      have hk2 : k < t.length := by
        simpa using Nat.lt_of_succ_lt_succ hk
      have hrec := findIdx?_eq_some_of_least p t k (i + 1) hk2 hp
        (fun j hj => hleast (j + 1) (Nat.succ_lt_succ hj))
      simp only [Bool.false_eq_true, if_false]
      rw [hrec]
      congr 1
      omega

theorem findIdx?_eq_none_of_all {α : Type} (p : α → Bool) :
    ∀ (l : List α) (i : Nat), (∀ x ∈ l, p x = false) → l.findIdx? p i = none
  | [], _, _ => rfl
  | a :: t, i, h => by
      have ha : p a = false := h a (by simp)
      simp only [List.findIdx?_cons, ha, Bool.false_eq_true, if_false]
      exact findIdx?_eq_none_of_all p t (i + 1) (fun x hx => h x (by simp [hx]))

/-- Claim C4: for the FDC-mode Search ID command with an empty argument
line, the engine writes the eight ASCII bytes "00000000", reads the
12-byte target, then writes "00" plus the uppercase two-digit hex of the
smallest matching sector index plus "0000" on a hit and "40000000" on a
miss, and the disk contents are unchanged in either case. -/
theorem search_id_spec (sectors : List Sector) (target : List Nat)
    (h80 : sectors.length = 80) (htgt : target.length = 12) :
    (fdc_search_id_section sectors target).2 = sectors ∧
      (∀ k (hk : k < sectors.length), (sectors.get ⟨k, hk⟩).id = target →
        (∀ j (hj : j < k), (sectors.get ⟨j, Nat.lt_trans hj hk⟩).id ≠ target) →
        (fdc_search_id_section sectors target).1 =
          [48, 48, 48, 48, 48, 48, 48, 48] ++ ([48, 48] ++ hex2 k ++ [48, 48, 48, 48])) ∧
      ((∀ k (hk : k < sectors.length), (sectors.get ⟨k, hk⟩).id ≠ target) →
        (fdc_search_id_section sectors target).1 =
          [48, 48, 48, 48, 48, 48, 48, 48] ++ [52, 48, 48, 48, 48, 48, 48, 48]) := by
  refine ⟨rfl, ?_, ?_⟩
  · intro k hk hid hleast
    rw [fdc_search_id_section]
    have hfind : sectors.findIdx? (fun s => s.id == target) 0 = some (0 + k) :=
      findIdx?_eq_some_of_least _ sectors k 0 hk (by rw [beq_iff_eq]; exact hid)
        (fun j hj => by rw [beq_eq_false_iff_ne]; exact hleast j hj)
    simp only [Nat.zero_add] at hfind
    rw [hfind]
    rfl
  · intro hall
    rw [fdc_search_id_section]
    have hfind : sectors.findIdx? (fun s => s.id == target) 0 = none := by
      apply findIdx?_eq_none_of_all
      intro x hx
      obtain ⟨n, hn⟩ := List.mem_iff_get.mp hx
      subst hn
      rw [beq_eq_false_iff_ne]
      exact hall n.1 n.2
    rw [hfind]

/-- Witness for claim C4: a hit on sector 0 of a concrete 80-sector disk. -/
theorem search_id_spec_witness :
    (fdc_search_id_section
        (Sector.mk (List.replicate 12 9) [] :: List.replicate 79 (Sector.mk (List.replicate 12 7) []))
        (List.replicate 12 9)).2 =
      (Sector.mk (List.replicate 12 9) [] ::
        List.replicate 79 (Sector.mk (List.replicate 12 7) [])) ∧
    (fdc_search_id_section
        (Sector.mk (List.replicate 12 9) [] :: List.replicate 79 (Sector.mk (List.replicate 12 7) []))
        (List.replicate 12 9)).1 =
      [48, 48, 48, 48, 48, 48, 48, 48] ++ ([48, 48] ++ hex2 0 ++ [48, 48, 48, 48]) := by
  have h := search_id_spec
    (Sector.mk (List.replicate 12 9) [] :: List.replicate 79 (Sector.mk (List.replicate 12 7) []))
    (List.replicate 12 9) (by simp) (by simp)
  exact ⟨h.1, h.2.1 0 (by simp) (by decide) (fun j hj => absurd hj (by omega))⟩

/-- fdcemu.rs Disk::set_flattened_data with its Result interface: the body
can only leave through the final Ok(()); the only implicit failure points,
the data[start..end] chunk slices (a panic when out of range, modelled
here as none), are always in range because the resize call fixes the data
length at 81920. -/
def set_flattened_data_result (sectors : List Sector) (v : List Nat) :
    Option (List Sector) :=
  if ∀ i ∈ List.range sectors.length, (i + 1) * 1024 ≤ (resize81920 v).length then
    some (set_flattened_data sectors v)
  else none

/-- Claim C10: Disk::set_flattened_data never fails: on the 80-sector disk
it returns Ok for every input byte vector of any length; its error branch
is unreachable. -/
theorem set_flattened_data_never_fails (sectors : List Sector) (v : List Nat)
    (h80 : sectors.length = 80) :
    set_flattened_data_result sectors v = some (set_flattened_data sectors v) := by
  rw [set_flattened_data_result, if_pos]
  intro i hi
  rw [resize81920_length, h80] at *
  simp only [List.mem_range] at hi
  omega

/-- Witness for claim C10 on a zeroed 80-sector disk and an empty input. -/
theorem set_flattened_data_never_fails_witness :
    set_flattened_data_result (List.replicate 80 (Sector.mk [] [])) [] =
      some (set_flattened_data (List.replicate 80 (Sector.mk [] [])) []) :=
  set_flattened_data_never_fails (List.replicate 80 (Sector.mk [] [])) [] (by simp)

/-- The std u8 string parse applied to an FDC argument field, for the
decimal spellings the claims quantify over: nonempty, all ASCII digits,
value at most 255 (the optional sign accepted by the std library is not
modelled; the claims only range over plain digit spellings). -/
def parseU8 (bs : List Nat) : Option Nat :=
  if bs ≠ [] ∧ ∀ b ∈ bs, 48 ≤ b ∧ b ≤ 57 then
    if (bs.foldl (fun acc b => acc * 10 + (b - 48)) 0) ≤ 255 then
      some (bs.foldl (fun acc b => acc * 10 + (b - 48)) 0)
    else none
  else none

/-- fdcemu.rs parse_psn_lsn: PSN defaults to 0 and must be below 80 when
given, LSN defaults to 1; parse failures are fatal (none). -/
def parse_psn_lsn (args : List (List Nat)) : Option (Nat × Nat) :=
  match args.get? 0 with
  | some bs =>
      match parseU8 bs with
      | some psn =>
          if psn < 80 then
            match args.get? 1 with
            | some bs2 =>
                match parseU8 bs2 with
                | some lsn => some (psn, lsn)
                | none => none
            | none => some (psn, 1)
          else none
      | none => none
  | none =>
      match args.get? 1 with
      | some bs2 =>
          match parseU8 bs2 with
          | some lsn => some (0, lsn)
          | none => none
      | none => some (0, 1)

/-- fdcemu.rs FdcServer::fdc_read_id_section: parse the arguments, write
the success reply, require a CR from the wire, then write the 12-byte
identifier of sector PSN. Returns the written bytes and the disk. -/
def fdc_read_id_section (sectors : List Sector) (args : List (List Nat)) (input : List Nat) :
    Option (List Nat × List Sector) :=
  match parse_psn_lsn args with
  | none => none
  | some (psn, _) =>
      match input.head? with
      | some 13 => some (success_reply psn ++ (sectors.getD psn (Sector.mk [] [])).id, sectors)
      | _ => none

/-- fdcemu.rs FdcServer::fdc_write_id_section (commands B and C): parse,
write the success reply, read 12 bytes as the new identifier of sector
PSN, write the success reply again. -/
def fdc_write_id_section (sectors : List Sector) (args : List (List Nat)) (input : List Nat) :
    Option (List Nat × List Sector) :=
  match parse_psn_lsn args with
  | none => none
  | some (psn, _) =>
      if 12 ≤ input.length then
        some (success_reply psn ++ success_reply psn,
          sectors.set psn (Sector.mk (input.take 12) (sectors.getD psn (Sector.mk [] [])).data))
      else none

/-- fdcemu.rs FdcServer::fdc_write_sector (commands W and X): parse, write
the success reply, read 1024 bytes as the new body of sector PSN, write
the success reply again. -/
def fdc_write_sector (sectors : List Sector) (args : List (List Nat)) (input : List Nat) :
    Option (List Nat × List Sector) :=
  match parse_psn_lsn args with
  | none => none
  | some (psn, _) =>
      if 1024 ≤ input.length then
        some (success_reply psn ++ success_reply psn,
          sectors.set psn (Sector.mk (sectors.getD psn (Sector.mk [] [])).id (input.take 1024)))
      else none

/-- fdcemu.rs FdcServer::fdc_read_sector (command R): parse, write the
success reply, require a CR, then write the 1024-byte body of sector
PSN. -/
def fdc_read_sector (sectors : List Sector) (args : List (List Nat)) (input : List Nat) :
    Option (List Nat × List Sector) :=
  match parse_psn_lsn args with
  | none => none
  | some (psn, _) =>
      match input.head? with
      | some 13 => some (success_reply psn ++ (sectors.getD psn (Sector.mk [] [])).data, sectors)
      | _ => none

/-- The argument-taking arms of the fdcemu.rs step_fdc dispatch: A, B, C,
W, X, R by ASCII code. -/
def fdc_command (cmd : Nat) (sectors : List Sector) (args : List (List Nat)) (input : List Nat) :
    Option (List Nat × List Sector) :=
  if cmd = 65 then fdc_read_id_section sectors args input
  else if cmd = 66 ∨ cmd = 67 then fdc_write_id_section sectors args input
  else if cmd = 87 ∨ cmd = 88 then fdc_write_sector sectors args input
  else if cmd = 82 then fdc_read_sector sectors args input
  else none

theorem parse_psn_lsn_snd (psnField l : List Nat) (rest : List (List Nat)) (v : Nat)
    (hv : parseU8 l = some v) :
    parse_psn_lsn (psnField :: l :: rest) =
      match parseU8 psnField with
      | some psn => if psn < 80 then some (psn, v) else none
      | none => none := by
  cases hpf : parseU8 psnField with
  | none => simp [parse_psn_lsn, hpf]
  | some psn => simp [parse_psn_lsn, hpf, hv]

/-- Claim C9: the LSN argument does not influence behaviour: for any of
the FDC commands A, B, C, W, X, R, two argument lines that differ only in
the LSN field, both fields being valid decimal spellings of a u8, produce
identical wire replies and identical final disks. -/
theorem lsn_noninterference (cmd : Nat) (sectors : List Sector) (psnField l1 l2 : List Nat)
    (rest : List (List Nat)) (input : List Nat) (v1 v2 : Nat)
    (hcmd : cmd = 65 ∨ cmd = 66 ∨ cmd = 67 ∨ cmd = 82 ∨ cmd = 87 ∨ cmd = 88)
    (h1 : parseU8 l1 = some v1) (h2 : parseU8 l2 = some v2) :
    fdc_command cmd sectors (psnField :: l1 :: rest) input =
      fdc_command cmd sectors (psnField :: l2 :: rest) input := by
  have hpar : parse_psn_lsn (psnField :: l1 :: rest) =
      match parseU8 psnField with
      | some psn => if psn < 80 then some (psn, v1) else none
      | none => none := parse_psn_lsn_snd psnField l1 rest v1 h1
  have hpar2 : parse_psn_lsn (psnField :: l2 :: rest) =
      match parseU8 psnField with
      | some psn => if psn < 80 then some (psn, v2) else none
      | none => none := parse_psn_lsn_snd psnField l2 rest v2 h2
  have hread : fdc_read_id_section sectors (psnField :: l1 :: rest) input =
      fdc_read_id_section sectors (psnField :: l2 :: rest) input := by
    rw [fdc_read_id_section, fdc_read_id_section, hpar, hpar2]
    cases hpf : parseU8 psnField with
    | none => rfl
    | some psn => by_cases hlt : psn < 80 <;> simp [hlt]
  have hwid : fdc_write_id_section sectors (psnField :: l1 :: rest) input =
      fdc_write_id_section sectors (psnField :: l2 :: rest) input := by
    rw [fdc_write_id_section, fdc_write_id_section, hpar, hpar2]
    cases hpf : parseU8 psnField with
    | none => rfl
    | some psn => by_cases hlt : psn < 80 <;> simp [hlt]
  have hwsec : fdc_write_sector sectors (psnField :: l1 :: rest) input =
      fdc_write_sector sectors (psnField :: l2 :: rest) input := by
    rw [fdc_write_sector, fdc_write_sector, hpar, hpar2]
    cases hpf : parseU8 psnField with
    | none => rfl
    | some psn => by_cases hlt : psn < 80 <;> simp [hlt]
  have hrsec : fdc_read_sector sectors (psnField :: l1 :: rest) input =
      fdc_read_sector sectors (psnField :: l2 :: rest) input := by
    rw [fdc_read_sector, fdc_read_sector, hpar, hpar2]
    cases hpf : parseU8 psnField with
    | none => rfl
    | some psn => by_cases hlt : psn < 80 <;> simp [hlt]
  rcases hcmd with rfl | rfl | rfl | rfl | rfl | rfl <;>
    simp [fdc_command, hread, hwid, hwsec, hrsec]

/-- Witness for claim C9: command W on a concrete disk with LSN fields
"1" and "25". -/
theorem lsn_noninterference_witness :
    fdc_command 87 (List.replicate 80 (Sector.mk [] [])) ([53] :: [49] :: []) (List.replicate 1024 6) =
      fdc_command 87 (List.replicate 80 (Sector.mk [] [])) ([53] :: [50, 53] :: []) (List.replicate 1024 6) :=
  lsn_noninterference 87 (List.replicate 80 (Sector.mk [] [])) [53] [49] [50, 53] [] (List.replicate 1024 6)
    1 25 (by norm_num) (by decide) (by decide)

end Knitty2
